import Mathlib

/-!
Verification of the in-memory mailbox engine of `localmail`
(src/localmail/inbox.py), as a shallow embedding in Lean 4.

Modelling conventions:
* Python byte strings are `List Nat` (each element `< 256` where relevant);
  Python `str` values that may carry surrogate-escaped bytes are `List Nat`
  of code points.
* Python `set` objects holding flags are `Finset String`.
* Fallible Python code (operations that can raise `IndexError` /
  `AttributeError` / `TypeError`) returns `Option`.
* `twisted.mail.imap4.MessageSet` is an external dependency (not part of the
  repository); it is modelled from the spec's query-boundary description:
  a list of ranges whose endpoints are either explicit positive numbers or
  the "largest" wildcard; assigning `last` substitutes the wildcard (and
  swaps inverted bounds, as twisted does); iteration visits the member
  numbers in ascending order without duplicates.
-/

set_option maxRecDepth 2000

namespace Localmail

/-- Flag constants (inbox.py lines 37-42). -/
def SEEN : String := "\\Seen"

def UNSEEN : String := "\\Unseen"

def DELETED : String := "\\Deleted"

def FLAGGED : String := "\\Flagged"

def ANSWERED : String := "\\Answered"

def RECENT : String := "\\Recent"

/-- ASCII lower-casing of a character (header names and content types in the
mail documents at hand are ASCII; Python's full-Unicode `str.lower` is not
needed beyond this). -/
def lowerChar (c : Char) : Char :=
  if 'A' ≤ c ∧ c ≤ 'Z' then Char.ofNat (c.toNat + 32) else c

/-- ASCII lower-casing of a string. -/
def strLower (s : String) : String := ⟨s.data.map lowerChar⟩

/-- Splitting a list at every occurrence of a separator element, keeping
empty pieces, like Python `str.split` with a one-character separator. -/
def splitOnChar (sep : Char) : List Char → List (List Char)
  | [] => [[]]
  | c :: rest =>
    match splitOnChar sep rest with
    | [] => [[]]
    | piece :: pieces => if c = sep then [] :: piece :: pieces else (c :: piece) :: pieces

/-- Python `value.split(sep)` for a one-character separator. -/
def strSplitOnChar (sep : Char) (s : String) : List String :=
  (splitOnChar sep s.data).map (fun l => ⟨l⟩)

/-- Whether `l` starts with `pat`. -/
def listStartsWith [DecidableEq α] : List α → List α → Bool
  | _, [] => true
  | [], _ :: _ => false
  | a :: as, b :: bs => a = b && listStartsWith as bs

/-- Whether `pat` occurs as a contiguous sublist of `l`
(Python `pat in l` on strings). -/
def listContainsSub [DecidableEq α] (l pat : List α) : Bool :=
  match l with
  | [] => pat.isEmpty
  | _ :: rest => listStartsWith l pat || listContainsSub rest pat

/-- Python `pat in s` substring containment. -/
def strContains (s pat : String) : Bool := listContainsSub s.data pat.data

def isSpaceChar (c : Char) : Bool := c = ' ' || c = '\t'

/-- Python `str.strip()` restricted to blanks and tabs. -/
def strTrim (s : String) : String :=
  ⟨((s.data.dropWhile isSpaceChar).reverse.dropWhile isSpaceChar).reverse⟩

mutual
/-- A parsed mail document (`email.message.Message`): headers, the optional
explicit charset attribute (`Message.get_charset()`), and either a flat
payload (the `_payload` string, as code points, possibly surrogate-escaped)
or a list of sub-documents (multipart). -/
inductive Doc where
  | leaf (headers : List (String × String)) (charsetAttr : Option String) (payload : List Nat)
  | multi (headers : List (String × String)) (charsetAttr : Option String) (parts : DocList)
deriving DecidableEq
inductive DocList where
  | nil
  | cons (d : Doc) (tl : DocList)
deriving DecidableEq
end

/-- Plain-list view of a `DocList`. -/
def DocList.toList : DocList → List Doc
  | .nil => []
  | .cons d tl => d :: DocList.toList tl

/-- The headers of a document. -/
def Doc.headersOf : Doc → List (String × String)
  | .leaf hs _ _ => hs
  | .multi hs _ _ => hs

/-- The explicit charset attribute of a document. -/
def Doc.charsetAttrOf : Doc → Option String
  | .leaf _ c _ => c
  | .multi _ c _ => c

/-- `Message.is_multipart()`: whether the payload is a list of parts. -/
def Doc.isMultipart : Doc → Bool
  | .leaf _ _ _ => false
  | .multi _ _ _ => true

/-- The flat `_payload` of a leaf document (a multipart document has none). -/
def Doc.payloadStr : Doc → List Nat
  | .leaf _ _ p => p
  | .multi _ _ _ => []

/-- Case-insensitive header lookup, first match
(`email.message.Message.__getitem__`; returns `none` for a missing header,
as Python returns `None`). -/
def getHeader (headers : List (String × String)) (name : String) : Option String :=
  (headers.find? (fun p => strLower p.1 == strLower name)).map (fun p => p.2)

mutual
/-- `Message.walk()`: the document itself followed by the walk of every
subpart, depth first. -/
def Doc.walk : Doc → List Doc
  | .leaf hs c p => [.leaf hs c p]
  | .multi hs c parts => .multi hs c parts :: DocList.walkAll parts
/-- Walk of each document in the list, concatenated. -/
def DocList.walkAll : DocList → List Doc
  | .nil => []
  | .cons d tl => Doc.walk d ++ DocList.walkAll tl
end

/-- `email.message.Message.get_content_maintype()`: the part of the
Content-Type value before the slash, lower-cased; `text` when the header is
missing or its first `;`-separated field is not of the shape `type/subtype`
(Python falls back to `text/plain`). -/
def getContentMaintype (d : Doc) : String :=
  match getHeader d.headersOf "Content-type" with
  | none => "text"
  | some v =>
    let ctype := strLower (strTrim ((strSplitOnChar ';' v).headD ""))
    if (ctype.data.filter (fun c => c = '/')).length ≠ 1 then "text"
    else ⟨ctype.data.takeWhile (fun c => c ≠ '/')⟩

/-- `MessagePart.parse_charset` (inbox.py lines 214-222): the explicit
charset attribute when set; otherwise the first `;`-separated chunk of the
Content-Type header that contains the substring `charset`, split at `=`,
second piece; otherwise the default.  Returns `none` where the Python code
raises: `self.msg['Content-type']` is `None` when the header is absent
(so `.split(';')` raises `AttributeError`), and a `charset` chunk without
`=` makes `chunk.split('=')[1]` raise `IndexError`. -/
def parse_charset (d : Doc) (default : String := "utf8") : Option String :=
  match d.charsetAttrOf with
  | some charset => some charset
  | none =>
    match getHeader d.headersOf "Content-type" with
    | none => none
    | some v =>
      match (strSplitOnChar ';' v).find? (fun chunk => strContains chunk "charset") with
      | some chunk => (strSplitOnChar '=' chunk).get? 1
      | none => some default

/-- Maps `f` over a list, failing as soon as `f` fails (the effect of a
Python loop whose body may raise). -/
def optMapList (f : α → Option β) : List α → Option (List β)
  | [] => some []
  | x :: xs =>
    match f x, optMapList f xs with
    | some y, some ys => some (y :: ys)
    | _, _ => none

/-- `Message.payloads` (inbox.py lines 263-269): walks the document, skips
parts whose content maintype is `multipart`, and for every remaining part
yields `part.get_payload(decode=True)` decoded with
`enc = self.parse_charset()` — `self` being the whole message, not `part`.
The pair `(enc, payload)` handed to `payload.decode(enc)` is yielded; the
payload is the part's stored body (undoing a Content-Transfer-Encoding is
the Python email library's work and the modelled documents carry identity
transfer encoding).  `none` when `parse_charset` raises. -/
def payloads (d : Doc) : Option (List (String × List Nat)) :=
  optMapList
    (fun part => (parse_charset d).map (fun enc => (enc, part.payloadStr)))
    ((Doc.walk d).filter (fun part => !(getContentMaintype part == "multipart")))

/-- Modelled from the spec: `payload_texts()` is described as decoding each
leaf part "using that part's own detected charset".  Identical to
`payloads` except that the charset is resolved from the part itself.  Used
only to compare the spec's wording with the code. -/
def payloads_per_part_spec (d : Doc) : Option (List (String × List Nat)) :=
  optMapList
    (fun part => (parse_charset part).map (fun enc => (enc, part.payloadStr)))
    ((Doc.walk d).filter (fun part => !(getContentMaintype part == "multipart")))

/-- Python `bytes.decode('ascii', 'surrogateescape')`: bytes below 128 map
to themselves, others to the lone surrogates `0xDC80`-`0xDCFF`. -/
def surrogateDecode (bs : List Nat) : List Nat :=
  bs.map (fun b => if b < 128 then b else 0xDC00 + b)

/-- Python `str.encode('ascii', 'surrogateescape')` on one code point. -/
def surrogateEncodeChar (c : Nat) : Option Nat :=
  if c < 128 then some c
  else if 0xDC80 ≤ c ∧ c ≤ 0xDCFF then some (c - 0xDC00)
  else none

/-- Python `str.encode('ascii', 'surrogateescape')`. -/
def surrogateEncode (cs : List Nat) : Option (List Nat) :=
  optMapList surrogateEncodeChar cs

/-- Splits a message text into header section and payload at the first
blank line, consuming the blank line; the Boolean tracks whether the scan
is at the start of a line.  (The feed parser ends the header section at the
first empty line; LF line endings are modelled.) -/
def splitBodyAux : Bool → List Nat → List Nat × List Nat
  | _, [] => ([], [])
  | atStart, c :: rest =>
    if c = 10 then
      if atStart then ([], rest)
      else
        let hb := splitBodyAux true rest
        (c :: hb.1, hb.2)
    else
      let hb := splitBodyAux false rest
      (c :: hb.1, hb.2)

/-- Header section and payload of a message text. -/
def splitBody (text : List Nat) : List Nat × List Nat := splitBodyAux true text

/-- Splitting a list at every occurrence of a separator, keeping empty
pieces (generic version of `splitOnChar`). -/
def splitOnElem [DecidableEq α] (sep : α) : List α → List (List α)
  | [] => [[]]
  | c :: rest =>
    match splitOnElem sep rest with
    | [] => [[]]
    | piece :: pieces => if c = sep then [] :: piece :: pieces else (c :: piece) :: pieces

/-- Header-section parsing: one header per line, name before the first
colon, value after it with leading blanks dropped; lines without a colon
are dropped.  Continuation lines are not modelled; header text is ASCII in
the modelled documents, so code points convert to characters directly. -/
def parseHeaders (hdrText : List Nat) : List (String × String) :=
  (splitOnElem 10 hdrText).filterMap (fun line =>
    let chars := line.map Char.ofNat
    if chars.contains ':' then
      some (⟨chars.takeWhile (fun c => c ≠ ':')⟩,
            ⟨((chars.dropWhile (fun c => c ≠ ':')).drop 1).dropWhile isSpaceChar⟩)
    else none)

/-- `email.message_from_binary_file` for a flat (non-multipart) document:
the byte stream is decoded with ascii+surrogateescape (`BytesFeedParser`),
the header section ends at the first blank line, and the remainder becomes
the `_payload` string unchanged.  Parsing never sets the explicit charset
attribute.  Multipart boundary splitting is not modelled: the round-trip
claim concerns non-multipart documents, and claims about parsed structure
quantify over `Doc` directly. -/
def parseMessage (raw : List Nat) : Doc :=
  let text := surrogateDecode raw
  let hb := splitBody text
  Doc.leaf (parseHeaders hb.1) none hb.2

/-- `MessagePart.getBodyFile` (inbox.py lines 189-201): raises `TypeError`
on a multipart document (`none` here); otherwise returns the payload
re-encoded with ascii+surrogateescape (parsed messages store the payload as
a string). -/
def getBodyFile (d : Doc) : Option (List Nat) :=
  if d.isMultipart then none
  else surrogateEncode d.payloadStr

/-- A stored message (`Message.__init__`, inbox.py lines 237-248): the UID
from the global counter, the mutable flag set, the arrival date, and the
parsed document. -/
structure Msg where
  uid : Nat
  flags : Finset String
  date : String
  doc : Doc
deriving DecidableEq

/-- `Message.getFlags`. -/
def Msg.getFlags (m : Msg) : Finset String := m.flags

/-- `Message.getUID`. -/
def Msg.getUID (m : Msg) : Nat := m.uid

/-- Modelled from the spec: `twisted.mail.imap4.MessageSet` is an external
collaborator (not in the repository).  Per the spec's query boundary, a
message-set specification is a list of ranges of 1-based numbers where
either endpoint may be the "largest" wildcard (`none` here); twisted's
`MessageSet` substitutes the wildcard when `last` is assigned, swaps
inverted bounds, and iterates the member numbers in ascending order without
duplicates. -/
structure MsgSet where
  ranges : List (Option Nat × Option Nat)
deriving DecidableEq

/-- Insertion into a strictly sorted list, dropping duplicates. -/
def insertSorted (n : Nat) : List Nat → List Nat
  | [] => [n]
  | m :: rest =>
    if n < m then n :: m :: rest
    else if n = m then m :: rest
    else m :: insertSorted n rest

/-- The strictly sorted list of the elements of `l`. -/
def toSortedSet (l : List Nat) : List Nat := l.foldr insertSorted []

/-- Iteration of a message set after `last` has been assigned: wildcards
are substituted, inverted bounds swapped, and the members listed in
ascending order without duplicates. -/
def MsgSet.iterate (s : MsgSet) (last : Nat) : List Nat :=
  toSortedSet ((s.ranges.map (fun p =>
    let lo := p.1.getD last
    let hi := p.2.getD last
    List.range' (min lo hi) (max lo hi + 1 - min lo hi))).flatten)

/-- The shared mutable state: the process-wide `LAST_UID` and the single
inbox's `msgs` list (inbox.py lines 34-35 and 76-80; `UID_GENERATOR =
count()` followed by `LAST_UID = next(UID_GENERATOR)` leaves `LAST_UID = 0`
at start-up, so the initial state has `lastUid = 0`).  The `uidvalidity`
token and the listener list play no part in the claims. -/
structure MState where
  lastUid : Nat
  msgs : List Msg
deriving DecidableEq

/-- The start-up state. -/
def initialState : MState := { lastUid := 0, msgs := [] }

/-- `get_counter` (inbox.py lines 45-48): advances `LAST_UID` and returns
it. -/
def get_counter (st : MState) : Nat × MState :=
  (st.lastUid + 1, { st with lastUid := st.lastUid + 1 })

/-- `MemoryIMAPMailbox.addMessage` (inbox.py lines 56-65): parses the raw
document, allocates the next UID, stores the flag list as a set, and
appends the message (the optional mbox mirror is a side-effect sink outside
the core state). -/
def addMessage (st : MState) (raw : List Nat) (flags : List String) (date : String) : MState :=
  let u := (get_counter st).1
  let st1 := (get_counter st).2
  { st1 with msgs := st1.msgs ++ [⟨u, flags.toFinset, date, parseMessage raw⟩] }

/-- Python list indexing `msgs[j]` for a possibly negative index: a
negative index wraps once from the end; out of range raises `IndexError`
(`none`). -/
def pyIdx (len : Nat) (j : Int) : Option Nat :=
  if 0 ≤ j then (if j < (len : Int) then some j.toNat else none)
  else if -(len : Int) ≤ j then some (len - (-j).toNat) else none

/-- `MemoryIMAPMailbox._get_msgs` (inbox.py lines 82-92), with each matched
`Message` object represented by its index into `msgs` (Python mutates the
shared objects; index-into-the-list stands for object identity here).
Empty mailbox: `{}`.  UID mode: `msg_set.last = LAST_UID`, then the pairs
`(i, msg)` over `enumerate(self.msgs)` with `msg.uid` in the set — the
dictionary key is the 0-based `enumerate` index.  Sequence mode:
`msg_set.last = len(msgs)`, then `(i, msgs[i - 1])` for `i` in the set;
`msgs[i - 1]` can raise `IndexError`, hence the `Option`. -/
def resolveIdx (st : MState) (s : MsgSet) (uid : Bool) : Option (List (Nat × Nat)) :=
  if st.msgs = [] then some []
  else if uid then
    let uids := s.iterate st.lastUid
    some ((st.msgs.enum.filter (fun p => decide (p.2.uid ∈ uids))).map (fun p => (p.1, p.1)))
  else
    let nums := s.iterate st.msgs.length
    optMapList (fun (i : Nat) => (pyIdx st.msgs.length ((i : Int) - 1)).map (fun j => (i, j))) nums

/-- `_get_msgs` with the message values filled back in: the insertion-
ordered dictionary from key to matched message. -/
def getMsgs (st : MState) (s : MsgSet) (uid : Bool) : Option (List (Nat × Msg)) :=
  (resolveIdx st s uid).map (fun l =>
    l.filterMap (fun p => (st.msgs.get? p.2).map (fun m => (p.1, m))))

/-- `MemoryIMAPMailbox.fetch` (inbox.py lines 122-124): the items of the
resolved mapping. -/
def fetch (st : MState) (s : MsgSet) (uid : Bool) : Option (List (Nat × Msg)) :=
  getMsgs st s uid

/-- The flag mutation applied to one message's flag set by
`MemoryIMAPMailbox.store` (inbox.py lines 140-150): mode `0` replaces the
set with `set(flags)`; otherwise each flag in order is added when mode is
`1` and absent, or removed when mode is `-1` and present. -/
def applyMode (mode : Int) (flags : List String) (f : Finset String) : Finset String :=
  if mode = 0 then flags.toFinset
  else
    flags.foldl (fun acc flag =>
      if mode = 1 ∧ flag ∉ acc then insert flag acc
      else if mode = -1 ∧ flag ∈ acc then acc.erase flag
      else acc) f

/-- Applies `f` to the flag set of every message whose position (counting
from `i`) is addressed by `idxs`; the Python loop mutates exactly the
resolved `Message` objects (applying the idempotent mutation once per
object even when two keys resolve to it, which Python's repeated mutation
also amounts to). -/
def updateFrom (idxs : List (Nat × Nat)) (f : Finset String → Finset String) :
    Nat → List Msg → List Msg
  | _, [] => []
  | i, m :: rest =>
    (if idxs.any (fun p => p.2 == i) then { m with flags := f m.flags } else m)
      :: updateFrom idxs f (i + 1) rest

/-- `MemoryIMAPMailbox.store` (inbox.py lines 137-151): resolves the set,
mutates every addressed message, and returns the mapping from the
resolution key to the post-mutation flag set. -/
def store (st : MState) (s : MsgSet) (flags : List String) (mode : Int) (uid : Bool) :
    Option (MState × List (Nat × Finset String)) :=
  (resolveIdx st s uid).map (fun idxs =>
    ({ st with msgs := updateFrom idxs (applyMode mode flags) 0 st.msgs },
     idxs.map (fun p =>
       (p.1, applyMode mode flags (((st.msgs.get? p.2).map Msg.flags).getD ∅)))))

/-- Python `list.remove`: drops the first equal element. -/
def listRemove (x : Msg) : List Msg → List Msg
  | [] => []
  | y :: ys => if y = x then ys else y :: listRemove x ys

/-- The loop of `MemoryIMAPMailbox.expunge` (inbox.py lines 153-162): for
each message of a copy of the list, a message carrying the deleted flag is
removed from the live list and its UID appended to the result. -/
def expungeLoop : List Msg → List Msg → List Nat → List Msg × List Nat
  | [], live, removed => (live, removed)
  | m :: rest, live, removed =>
    if DELETED ∈ m.flags then expungeLoop rest (listRemove m live) (removed ++ [m.uid])
    else expungeLoop rest live removed

/-- `MemoryIMAPMailbox.expunge`: the remaining messages and the removed
UIDs. -/
def expunge (msgs : List Msg) : List Msg × List Nat := expungeLoop msgs msgs []

/-- `expunge` acting on the shared state. -/
def expungeState (st : MState) : MState × List Nat :=
  ({ st with msgs := (expunge st.msgs).1 }, (expunge st.msgs).2)

/-- `MemoryIMAPMailbox.getMessageCount`. -/
def getMessageCount (st : MState) : Nat := st.msgs.length

/-- `MemoryIMAPMailbox.getRecentCount` (inbox.py lines 104-105). -/
def getRecentCount (st : MState) : Nat :=
  (st.msgs.filter (fun m => decide (RECENT ∈ m.getFlags))).length

/-- `MemoryIMAPMailbox.getUnseenCount` (inbox.py lines 107-108): the
number of messages whose flag set contains the `\Unseen` token. -/
def getUnseenCount (st : MState) : Nat :=
  (st.msgs.filter (fun m => decide (UNSEEN ∈ m.getFlags))).length

/-- `MemoryIMAPMailbox.getUIDNext` (inbox.py lines 119-120). -/
def getUIDNext (st : MState) : Nat := st.lastUid + 1

/-- `MemoryIMAPMailbox.getUID` (inbox.py lines 116-117). -/
def getUID (st : MState) (messageNum : Nat) : Option Nat :=
  (pyIdx st.msgs.length ((messageNum : Int) - 1)).bind
    (fun j => (st.msgs.get? j).map Msg.uid)

/-- One mailbox operation of a delivery/expunge trace. -/
inductive Op where
  | deliver (raw : List Nat) (flags : List String) (date : String)
  | expungeOp
deriving DecidableEq

/-- Runs a trace of operations, collecting the UID assigned by every
delivery in order. -/
def runOps (st : MState) : List Op → MState × List Nat
  | [] => (st, [])
  | Op.deliver raw flags date :: rest =>
    let st1 := addMessage st raw flags date
    let r := runOps st1 rest
    (r.1, (st.lastUid + 1) :: r.2)
  | Op.expungeOp :: rest => runOps (expungeState st).1 rest

/-! ### Helper lemmas -/

theorem mem_insertSorted {b n : Nat} : ∀ {l : List Nat}, b ∈ insertSorted n l ↔ b = n ∨ b ∈ l
  | [] => by simp [insertSorted]
  | m :: rest => by
    simp only [insertSorted]
    split
    · simp
    · split
      · rename_i h1 h2
        subst h2
        simp [or_comm]
      · simp only [List.mem_cons, mem_insertSorted (l := rest)]
        tauto

theorem pairwise_insertSorted {n : Nat} :
    ∀ {l : List Nat}, l.Pairwise (· < ·) → (insertSorted n l).Pairwise (· < ·)
  | [], _ => by simp [insertSorted]
  | m :: rest, h => by
    simp only [insertSorted]
    rcases List.pairwise_cons.mp h with ⟨hm, hrest⟩
    split
    · rename_i hlt
      refine List.pairwise_cons.mpr ⟨?_, h⟩
      intro b hb
      rcases List.mem_cons.mp hb with rfl | hb
      · exact hlt
      · exact lt_trans hlt (hm b hb)
    · split
      · exact h
      · rename_i hnlt hne
        refine List.pairwise_cons.mpr ⟨?_, pairwise_insertSorted hrest⟩
        intro b hb
        rcases mem_insertSorted.mp hb with rfl | hb
        · omega
        · exact hm b hb

theorem mem_toSortedSet {b : Nat} : ∀ {l : List Nat}, b ∈ toSortedSet l ↔ b ∈ l
  | [] => by simp [toSortedSet]
  | m :: rest => by
    simp only [toSortedSet, List.foldr_cons, mem_insertSorted, List.mem_cons]
    have : b ∈ toSortedSet rest ↔ b ∈ rest := mem_toSortedSet
    simp only [toSortedSet] at this
    rw [this]

theorem pairwise_toSortedSet : ∀ (l : List Nat), (toSortedSet l).Pairwise (· < ·)
  | [] => by simp [toSortedSet]
  | m :: rest => by
    simp only [toSortedSet, List.foldr_cons]
    exact pairwise_insertSorted (pairwise_toSortedSet rest)

theorem insertSorted_eq_cons {n : Nat} {l : List Nat} (h : ∀ b ∈ l, n < b) :
    insertSorted n l = n :: l := by
  cases l with
  | nil => rfl
  | cons m rest =>
    have := h m (by simp)
    simp [insertSorted, this]

theorem toSortedSet_eq_self : ∀ {l : List Nat}, l.Pairwise (· < ·) → toSortedSet l = l
  | [], _ => rfl
  | m :: rest, h => by
    rcases List.pairwise_cons.mp h with ⟨hm, hrest⟩
    simp only [toSortedSet, List.foldr_cons]
    have hr : toSortedSet rest = rest := toSortedSet_eq_self hrest
    simp only [toSortedSet] at hr
    rw [hr]
    exact insertSorted_eq_cons hm

theorem optMapList_isSome_iff {f : α → Option β} :
    ∀ {l : List α}, (optMapList f l).isSome ↔ ∀ x ∈ l, (f x).isSome
  | [] => by simp [optMapList]
  | x :: xs => by
    simp only [optMapList]
    cases hfx : f x with
    | none => simp [hfx]
    | some y =>
      cases hrest : optMapList f xs with
      | none =>
        have := optMapList_isSome_iff (f := f) (l := xs)
        rw [hrest] at this
        simp only [Option.isSome_none, Bool.false_eq_true, false_iff] at this
        push_neg at this
        rcases this with ⟨z, hz, hfz⟩
        simp only [Option.isSome_none, Bool.false_eq_true, false_iff]
        push_neg
        exact ⟨z, by simp [hz], hfz⟩
      | some ys =>
        have := optMapList_isSome_iff (f := f) (l := xs)
        rw [hrest] at this
        simp only [Option.isSome_some, true_iff] at this
        simp only [Option.isSome_some, true_iff]
        intro z hz
        rcases List.mem_cons.mp hz with rfl | hz
        · simp [hfx]
        · exact this z hz

theorem optMapList_forall₂ {f : α → Option β} :
    ∀ {l : List α} {r : List β}, optMapList f l = some r →
      List.Forall₂ (fun x y => f x = some y) l r
  | [], r, h => by
    simp only [optMapList, Option.some.injEq] at h
    subst h
    exact List.Forall₂.nil
  | x :: xs, r, h => by
    simp only [optMapList] at h
    cases hfx : f x with
    | none => rw [hfx] at h; exact absurd h (by simp)
    | some y =>
      rw [hfx] at h
      cases hrest : optMapList f xs with
      | none => rw [hrest] at h; exact absurd h (by simp)
      | some ys =>
        rw [hrest] at h
        simp only [Option.some.injEq] at h
        subst h
        exact List.Forall₂.cons hfx (optMapList_forall₂ hrest)

theorem optMapList_eq_map {f : α → Option β} {g : α → β} :
    ∀ {l : List α}, (∀ x ∈ l, f x = some (g x)) → optMapList f l = some (l.map g)
  | [], _ => rfl
  | x :: xs, h => by
    have hx := h x (by simp)
    have hxs : optMapList f xs = some (xs.map g) :=
      optMapList_eq_map (fun z hz => h z (by simp [hz]))
    simp [optMapList, hx, hxs]

theorem optMapList_mem {f : α → Option β} :
    ∀ {l : List α} {r : List β}, optMapList f l = some r →
      ∀ y ∈ r, ∃ x ∈ l, f x = some y
  | [], r, h => by
    simp only [optMapList, Option.some.injEq] at h
    subst h
    simp
  | x :: xs, r, h => by
    simp only [optMapList] at h
    cases hfx : f x with
    | none => rw [hfx] at h; exact absurd h (by simp)
    | some y =>
      rw [hfx] at h
      cases hrest : optMapList f xs with
      | none => rw [hrest] at h; exact absurd h (by simp)
      | some ys =>
        rw [hrest] at h
        simp only [Option.some.injEq] at h
        subst h
        intro z hz
        rcases List.mem_cons.mp hz with rfl | hz
        · exact ⟨x, by simp, hfx⟩
        · rcases optMapList_mem hrest z hz with ⟨w, hw, hfw⟩
          exact ⟨w, by simp [hw], hfw⟩

theorem optMapList_keys {g : Nat → Option Nat} :
    ∀ {l : List Nat} {r : List (Nat × Nat)},
      optMapList (fun i => (g i).map (fun j => (i, j))) l = some r →
      r.map Prod.fst = l
  | [], r, h => by
    simp only [optMapList, Option.some.injEq] at h
    subst h
    rfl
  | x :: xs, r, h => by
    simp only [optMapList] at h
    cases hfx : (g x).map (fun j => (x, j)) with
    | none => rw [hfx] at h; exact absurd h (by simp)
    | some y =>
      rw [hfx] at h
      cases hrest : optMapList (fun i => (g i).map (fun j => (i, j))) xs with
      | none => rw [hrest] at h; exact absurd h (by simp)
      | some ys =>
        rw [hrest] at h
        simp only [Option.some.injEq] at h
        subst h
        have hy : y.1 = x := by
          cases hgx : g x with
          | none => rw [hgx] at hfx; exact absurd hfx (by simp)
          | some j =>
            rw [hgx] at hfx
            simp only [Option.map_some', Option.some.injEq] at hfx
            rw [← hfx]
        simp [hy, optMapList_keys hrest]

theorem mem_enum_get? {l : List α} {p : Nat × α} (h : p ∈ l.enum) :
    p.1 < l.length ∧ l.get? p.1 = some p.2 := by
  obtain ⟨i, x⟩ := p
  have h' : (i, x) ∈ List.enumFrom 0 l := h
  obtain ⟨-, hlt, hx⟩ := List.mem_enumFrom h'
  have hlen : i < l.length := by omega
  refine ⟨hlen, ?_⟩
  rw [List.get?_eq_getElem?, List.getElem?_eq_getElem hlen]
  simpa using hx.symm

theorem pairwise_enum_fst (l : List α) :
    l.enum.Pairwise (fun a b => a.1 < b.1) := by
  have h1 : (l.enum.map Prod.fst).Pairwise (· < ·) := by
    rw [List.enum_map_fst]
    exact List.pairwise_lt_range _
  exact List.pairwise_map.mp h1

theorem filterMap_fill {msgs : List Msg} :
    ∀ {l : List (Nat × Msg)}, (∀ p ∈ l, msgs.get? p.1 = some p.2) →
      (l.map (fun p => (p.1, p.1))).filterMap
        (fun p => (msgs.get? p.2).map (fun m => (p.1, m))) = l
  | [], _ => rfl
  | p :: rest, h => by
    have hp := h p (List.mem_cons_self p rest)
    have hr := filterMap_fill (l := rest) (fun q hq => h q (List.mem_cons_of_mem p hq))
    rw [List.get?_eq_getElem?] at hp
    simp only [List.get?_eq_getElem?, List.map_cons, List.filterMap_cons, List.filterMap_map,
      Function.comp] at hr ⊢
    simp [hp, hr]

theorem getMsgs_uid_eq {st : MState} {s : MsgSet} (hne : st.msgs ≠ []) :
    getMsgs st s true
      = some (st.msgs.enum.filter (fun p => decide (p.2.uid ∈ s.iterate st.lastUid))) := by
  simp only [getMsgs, resolveIdx, if_neg hne, if_pos, Option.map_some']
  refine congrArg some (filterMap_fill ?_)
  intro p hp
  exact (mem_enum_get? (List.mem_of_mem_filter hp)).2

theorem iterate_pos {s : MsgSet} {last : Nat}
    (hwf : ∀ p ∈ s.ranges, (∀ a ∈ p.1.toList, 1 ≤ a) ∧ (∀ b ∈ p.2.toList, 1 ≤ b))
    (hlast : 1 ≤ last) : ∀ i ∈ s.iterate last, 1 ≤ i := by
  intro i hi
  rw [MsgSet.iterate, mem_toSortedSet] at hi
  rcases List.mem_flatten.mp hi with ⟨piece, hpiece, hipiece⟩
  rcases List.mem_map.mp hpiece with ⟨p, hp, rfl⟩
  have hlo : 1 ≤ p.1.getD last := by
    cases h1 : p.1 with
    | none => simpa using hlast
    | some a => exact (hwf p hp).1 a (by simp [h1])
  have hhi : 1 ≤ p.2.getD last := by
    cases h2 : p.2 with
    | none => simpa using hlast
    | some b => exact (hwf p hp).2 b (by simp [h2])
  have := (List.mem_range'_1.mp hipiece).1
  omega

theorem pyIdx_pos_some {len i : Nat} (h1 : 1 ≤ i) (h2 : i ≤ len) :
    pyIdx len ((i : Int) - 1) = some (i - 1) := by
  unfold pyIdx
  split_ifs <;> first
    | (refine congrArg some ?_; omega)
    | omega

theorem pyIdx_pos_none {len i : Nat} (h1 : 1 ≤ i) (h2 : len < i) :
    pyIdx len ((i : Int) - 1) = none := by
  unfold pyIdx
  split_ifs <;> first
    | rfl
    | omega

theorem pyIdx_lt {len : Nat} {j : Int} {k : Nat} (h : pyIdx len j = some k) : k < len := by
  unfold pyIdx at h
  split_ifs at h <;> simp only [Option.some.injEq] at h <;> omega

theorem listRemove_append {x : Msg} :
    ∀ {pre rest : List Msg}, x ∉ pre → listRemove x (pre ++ x :: rest) = pre ++ rest
  | [], rest, _ => by simp [listRemove]
  | y :: pre, rest, h => by
    have hyx : ¬(y = x) := fun e => h (by simp [e])
    have ih := @listRemove_append x pre rest (fun hx => h (List.mem_cons_of_mem y hx))
    simp only [List.cons_append, listRemove, if_neg hyx]
    exact congrArg (List.cons y) ih

theorem expungeLoop_spec :
    ∀ (copy pre : List Msg) (r : List Nat), (∀ p ∈ pre, DELETED ∉ p.flags) →
      expungeLoop copy (pre ++ copy) r
        = (pre ++ copy.filter (fun m => decide (DELETED ∉ m.flags)),
           r ++ (copy.filter (fun m => decide (DELETED ∈ m.flags))).map Msg.uid)
  | [], pre, r, _ => by simp [expungeLoop]
  | m :: rest, pre, r, h => by
    simp only [expungeLoop]
    by_cases hd : DELETED ∈ m.flags
    · rw [if_pos hd]
      have hnp : m ∉ pre := fun hm => (h m hm) hd
      rw [listRemove_append hnp, expungeLoop_spec rest pre (r ++ [m.uid]) h]
      simp [hd]
    · rw [if_neg hd]
      have hsplit : pre ++ m :: rest = (pre ++ [m]) ++ rest := by simp
      rw [hsplit, expungeLoop_spec rest (pre ++ [m]) r ?_]
      · simp [hd]
      · intro p hp
        rcases List.mem_append.mp hp with hp | hp
        · exact h p hp
        · simp only [List.mem_singleton] at hp
          subst hp
          exact hd

theorem expunge_eq (msgs : List Msg) :
    expunge msgs
      = (msgs.filter (fun m => decide (DELETED ∉ m.flags)),
         (msgs.filter (fun m => decide (DELETED ∈ m.flags))).map Msg.uid) := by
  have := expungeLoop_spec msgs [] [] (by simp)
  simpa [expunge] using this

theorem applyMode_one (F : List String) (f : Finset String) :
    applyMode 1 F f = F.foldl (fun acc flag => insert flag acc) f := by
  unfold applyMode
  rw [if_neg (by norm_num)]
  congr 1
  funext acc flag
  by_cases h : flag ∈ acc <;> simp [h, Finset.insert_eq_self]

theorem applyMode_neg (F : List String) (f : Finset String) :
    applyMode (-1) F f = F.foldl (fun acc flag => acc.erase flag) f := by
  unfold applyMode
  rw [if_neg (by norm_num)]
  congr 1
  funext acc flag
  by_cases h : flag ∈ acc <;> simp [h, Finset.erase_eq_self]

theorem mem_foldl_insert :
    ∀ (F : List String) (f : Finset String) (x : String),
      (x ∈ F.foldl (fun acc flag => insert flag acc) f) ↔ x ∈ f ∨ x ∈ F
  | [], f, x => by simp
  | a :: F, f, x => by
    simp only [List.foldl_cons]
    rw [mem_foldl_insert F (insert a f) x]
    simp only [Finset.mem_insert, List.mem_cons]
    tauto

theorem mem_foldl_erase :
    ∀ (F : List String) (f : Finset String) (x : String),
      (x ∈ F.foldl (fun acc flag => acc.erase flag) f) ↔ x ∈ f ∧ x ∉ F
  | [], f, x => by simp
  | a :: F, f, x => by
    simp only [List.foldl_cons]
    rw [mem_foldl_erase F (f.erase a) x]
    simp only [Finset.mem_erase, List.mem_cons]
    tauto

theorem applyMode_remove_add {F : List String} {f : Finset String}
    (h : ∀ x ∈ F, x ∉ f) : applyMode (-1) F (applyMode 1 F f) = f := by
  ext x
  rw [applyMode_neg, mem_foldl_erase, applyMode_one, mem_foldl_insert]
  constructor
  · rintro ⟨hin | hin, hnot⟩
    · exact hin
    · exact absurd hin hnot
  · intro hx
    exact ⟨Or.inl hx, fun hF => h x hF hx⟩

theorem updateFrom_map_uid (idxs : List (Nat × Nat)) (f : Finset String → Finset String) :
    ∀ (i : Nat) (l : List Msg), (updateFrom idxs f i l).map Msg.uid = l.map Msg.uid
  | _, [] => rfl
  | i, m :: rest => by
    simp only [updateFrom, List.map_cons]
    rw [updateFrom_map_uid idxs f (i + 1) rest]
    congr 1
    split <;> rfl

theorem updateFrom_comp (idxs : List (Nat × Nat)) (f g : Finset String → Finset String) :
    ∀ (i : Nat) (l : List Msg),
      updateFrom idxs g i (updateFrom idxs f i l) = updateFrom idxs (fun x => g (f x)) i l
  | _, [] => rfl
  | i, m :: rest => by
    simp only [updateFrom]
    by_cases h : idxs.any (fun p => p.2 == i) <;>
      simp [h, updateFrom, updateFrom_comp idxs f g (i + 1) rest]

theorem updateFrom_id (idxs : List (Nat × Nat)) (f : Finset String → Finset String) :
    ∀ (i : Nat) (l : List Msg),
      (∀ j m, idxs.any (fun p => p.2 == j) = true → i ≤ j → l.get? (j - i) = some m →
        f m.flags = m.flags) →
      updateFrom idxs f i l = l
  | _, [], _ => rfl
  | i, m :: rest, h => by
    simp only [updateFrom]
    have hrest : updateFrom idxs f (i + 1) rest = rest := by
      refine updateFrom_id idxs f (i + 1) rest ?_
      intro j m' hj hij hget
      refine h j m' hj (by omega) ?_
      have hidx : j - i = (j - (i + 1)) + 1 := by omega
      rw [hidx]
      simpa using hget
    rw [hrest]
    split
    · rename_i hcond
      have hflags := h i m hcond (le_refl i) (by simp)
      cases m
      simp only [Msg.mk.injEq] at hflags ⊢
      simp_all
    · rfl

theorem enumFilter_congr {uids : List Nat} :
    ∀ {l1 l2 : List Msg} (n : Nat), l1.map Msg.uid = l2.map Msg.uid →
      ((List.enumFrom n l1).filter (fun p => decide (p.2.uid ∈ uids))).map (fun p => (p.1, p.1))
        = ((List.enumFrom n l2).filter (fun p => decide (p.2.uid ∈ uids))).map
            (fun p => (p.1, p.1))
  | [], [], _, _ => rfl
  | [], _ :: _, _, h => by simp at h
  | _ :: _, [], _, h => by simp at h
  | m1 :: r1, m2 :: r2, n, h => by
    simp only [List.map_cons, List.cons.injEq] at h
    obtain ⟨huid, hrest⟩ := h
    simp only [List.enumFrom, List.filter_cons]
    by_cases hmem : m2.uid ∈ uids <;>
      simp [huid, hmem, enumFilter_congr (n + 1) hrest]

theorem resolveIdx_congr {st1 st2 : MState} {s : MsgSet} {u : Bool}
    (hlast : st1.lastUid = st2.lastUid) (huid : st1.msgs.map Msg.uid = st2.msgs.map Msg.uid) :
    resolveIdx st1 s u = resolveIdx st2 s u := by
  have hlen : st1.msgs.length = st2.msgs.length := by
    have := congrArg List.length huid
    simpa using this
  by_cases hne : st1.msgs = []
  · have hne2 : st2.msgs = [] := by
      rw [hne] at hlen
      exact List.eq_nil_of_length_eq_zero hlen.symm
    simp [resolveIdx, hne, hne2]
  · have hne2 : st2.msgs ≠ [] := by
      intro h2
      rw [h2] at hlen
      exact hne (List.eq_nil_of_length_eq_zero hlen)
    cases u with
    | true =>
      simp only [resolveIdx, if_neg hne, if_neg hne2, hlast]
      exact congrArg some (enumFilter_congr 0 huid)
    | false =>
      simp only [resolveIdx, if_neg hne, if_neg hne2, hlen]
      simp

theorem store_of_resolve {st : MState} {s : MsgSet} {F : List String} {mode : Int} {u : Bool}
    {idxs : List (Nat × Nat)} (h : resolveIdx st s u = some idxs) :
    store st s F mode u
      = some ({ st with msgs := updateFrom idxs (applyMode mode F) 0 st.msgs },
          idxs.map (fun p =>
            (p.1, applyMode mode F (((st.msgs.get? p.2).map Msg.flags).getD ∅)))) := by
  simp [store, h]

theorem resolveIdx_false_eq {st : MState} {s : MsgSet} (hne : st.msgs ≠ []) :
    resolveIdx st s false
      = optMapList (fun (i : Nat) => (pyIdx st.msgs.length ((i : Int) - 1)).map (fun j => (i, j)))
          (s.iterate st.msgs.length) := by
  simp [resolveIdx, hne]

theorem filterMap_fst {msgs : List Msg} :
    ∀ {idxs : List (Nat × Nat)}, (∀ p ∈ idxs, p.2 < msgs.length) →
      (idxs.filterMap (fun p => (msgs.get? p.2).map (fun m => (p.1, m)))).map Prod.fst
        = idxs.map Prod.fst
  | [], _ => rfl
  | p :: rest, h => by
    have hplen := h p (List.mem_cons_self p rest)
    obtain ⟨m, hm⟩ : ∃ m, msgs.get? p.2 = some m := by
      rw [List.get?_eq_getElem?]
      exact ⟨_, List.getElem?_eq_getElem hplen⟩
    have hr := @filterMap_fst msgs rest (fun q hq => h q (List.mem_cons_of_mem p hq))
    rw [List.get?_eq_getElem?] at hm
    simp only [List.get?_eq_getElem?] at hr
    simp [List.filterMap_cons, hm, hr]

theorem pairwise_iterate (s : MsgSet) (last : Nat) : (s.iterate last).Pairwise (· < ·) :=
  pairwise_toSortedSet _

theorem length_filter_compl (l : List α) (p : α → Bool) :
    (l.filter p).length + (l.filter (fun a => ! p a)).length = l.length := by
  induction l with
  | nil => rfl
  | cons a rest ih =>
    by_cases h : p a <;> simp [List.filter_cons, h] <;> omega

/-! ### Concrete fixtures used by witnesses and counterexamples -/

/-- An empty document used in concrete mailbox states. -/
def doc0 : Doc := Doc.leaf [] none []

/-- A message with UID 1 and no flags. -/
def msgA : Msg := ⟨1, ∅, "d", doc0⟩

/-- A message with UID 2 and no flags. -/
def msgB : Msg := ⟨2, ∅, "d", doc0⟩

/-- The message-set specification `1:*`. -/
def setStar : MsgSet := ⟨[(some 1, none)]⟩

theorem runOps_uid_bound :
    ∀ (ops : List Op) (st : MState), ∀ u ∈ (runOps st ops).2, st.lastUid < u
  | [], _ => by simp [runOps]
  | Op.deliver raw flags date :: rest, st => by
    intro u hu
    simp only [runOps, List.mem_cons] at hu
    rcases hu with rfl | hu
    · omega
    · have := runOps_uid_bound rest (addMessage st raw flags date) u hu
      have hlast : (addMessage st raw flags date).lastUid = st.lastUid + 1 := rfl
      omega
  | Op.expungeOp :: rest, st => by
    intro u hu
    simp only [runOps] at hu
    have := runOps_uid_bound rest (expungeState st).1 u hu
    exact this

theorem runOps_pairwise :
    ∀ (ops : List Op) (st : MState), ((runOps st ops).2).Pairwise (· < ·)
  | [], _ => by simp [runOps]
  | Op.deliver raw flags date :: rest, st => by
    simp only [runOps]
    refine List.pairwise_cons.mpr ⟨?_, runOps_pairwise rest _⟩
    intro u hu
    have := runOps_uid_bound rest (addMessage st raw flags date) u hu
    have hlast : (addMessage st raw flags date).lastUid = st.lastUid + 1 := rfl
    omega
  | Op.expungeOp :: rest, st => by
    simp only [runOps]
    exact runOps_pairwise rest _

/-- C2: along every trace of deliveries, possibly interleaved with expunge
calls, the UIDs assigned to created messages are strictly increasing and
never repeat (expunging never frees a UID for reuse). -/
theorem c2_uid_strictly_increasing (st : MState) (ops : List Op) :
    ((runOps st ops).2).Pairwise (· < ·) ∧ ((runOps st ops).2).Nodup :=
  ⟨runOps_pairwise ops st, (runOps_pairwise ops st).imp Nat.ne_of_lt⟩

/-- C3: expunge removes exactly the messages carrying the deleted flag,
keeps every other message in arrival order, returns the removed UIDs in
arrival order, and a second expunge with no new deletions returns the empty
sequence. -/
theorem c3_expunge_exact (msgs : List Msg) :
    (expunge msgs).1 = msgs.filter (fun m => decide (DELETED ∉ m.flags))
      ∧ (expunge msgs).2 = (msgs.filter (fun m => decide (DELETED ∈ m.flags))).map Msg.uid
      ∧ (expunge (expunge msgs).1).2 = [] := by
  have h := expunge_eq msgs
  refine ⟨by rw [h], by rw [h], ?_⟩
  rw [h, expunge_eq]
  have hempty : ((msgs.filter (fun m => decide (DELETED ∉ m.flags))).filter
      (fun m => decide (DELETED ∈ m.flags))) = [] := by
    rw [List.eq_nil_iff_forall_not_mem]
    intro m hm
    rcases List.mem_filter.mp hm with ⟨hm1, hdel⟩
    rcases List.mem_filter.mp hm1 with ⟨-, hnotdel⟩
    simp only [decide_eq_true_eq] at hdel hnotdel
    exact hnotdel hdel
  rw [hempty]
  rfl

/-- C7 counterexample: a message with an empty flag set does not carry
`\Seen`, so the claim predicts an unseen count of 1, but the code counts
messages carrying the `\Unseen` token and returns 0. -/
theorem c7_unseen_counterexample :
    getUnseenCount (MState.mk 1 [⟨1, ∅, "d", doc0⟩]) = 0
      ∧ ((MState.mk 1 [⟨1, ∅, "d", doc0⟩]).msgs.filter
          (fun m => decide (SEEN ∉ m.flags))).length = 1
      ∧ getUnseenCount (MState.mk 1 [⟨1, ∅, "d", doc0⟩])
          ≠ ((MState.mk 1 [⟨1, ∅, "d", doc0⟩]).msgs.filter
              (fun m => decide (SEEN ∉ m.flags))).length := by
  refine ⟨by decide, by decide, by decide⟩

/-- C7 (amended): the unseen-count query returns the number of messages
whose flag set contains the `\Unseen` token (not the number of messages
lacking `\Seen`); equivalently, it and the count of messages without
`\Unseen` partition the mailbox. -/
theorem c7_unseen_counts_unseen_flag (st : MState) :
    getUnseenCount st = st.msgs.countP (fun m => decide (UNSEEN ∈ m.flags))
      ∧ getUnseenCount st
          + (st.msgs.filter (fun m => decide (UNSEEN ∉ m.flags))).length
        = st.msgs.length := by
  constructor
  · rw [List.countP_eq_length_filter]
    rfl
  · have h := length_filter_compl st.msgs (fun m => decide (UNSEEN ∈ m.flags))
    have hconv : (st.msgs.filter (fun m => ! decide (UNSEEN ∈ m.flags)))
        = st.msgs.filter (fun m => decide (UNSEEN ∉ m.flags)) := by
      refine List.filter_congr ?_
      intro m _
      simp [decide_not]
    rw [hconv] at h
    exact h

/-- C9 counterexample: with no explicit charset attribute and no
Content-Type header at all, `parse_charset` raises `AttributeError`
(`None.split`) instead of returning the default. -/
theorem c9_missing_header_counterexample :
    parse_charset (Doc.leaf [("Subject", "hello")] none []) "utf8" = none
      ∧ parse_charset (Doc.leaf [("Subject", "hello")] none []) "utf8" ≠ some "utf8" := by
  refine ⟨by decide, by decide⟩

/-- C9 (amended): charset resolution returns the explicit attribute first;
otherwise, when a Content-Type header is present, the second `=`-separated
piece of its first `;`-separated chunk containing `charset` (failing when
that chunk has no `=`), or the supplied default when no chunk mentions
`charset`; when the document has no Content-Type header at all it fails
(raises) rather than returning the default. -/
theorem c9_parse_charset_cases (d : Doc) (dflt : String) :
    (∀ c, d.charsetAttrOf = some c → parse_charset d dflt = some c)
      ∧ (d.charsetAttrOf = none → getHeader d.headersOf "Content-type" = none →
          parse_charset d dflt = none)
      ∧ (∀ v chunk, d.charsetAttrOf = none → getHeader d.headersOf "Content-type" = some v →
          (strSplitOnChar ';' v).find? (fun c => strContains c "charset") = some chunk →
          parse_charset d dflt = (strSplitOnChar '=' chunk).get? 1)
      ∧ (∀ v, d.charsetAttrOf = none → getHeader d.headersOf "Content-type" = some v →
          (∀ chunk ∈ strSplitOnChar ';' v, strContains chunk "charset" = false) →
          parse_charset d dflt = some dflt) := by
  refine ⟨?_, ?_, ?_, ?_⟩
  · intro c hc
    simp [parse_charset, hc]
  · intro h1 h2
    simp [parse_charset, h1, h2]
  · intro v chunk h1 h2 hfind
    simp [parse_charset, h1, h2, hfind]
  · intro v h1 h2 h3
    have hfind : (strSplitOnChar ';' v).find? (fun chunk => strContains chunk "charset")
        = none := by
      apply List.find?_eq_none.mpr
      intro x hx
      simp [h3 x hx]
    simp [parse_charset, h1, h2, hfind]

/-- C9 witness: a Content-Type header with a charset parameter yields that
parameter's value (the `=`-split second piece of the matching chunk), and a
Content-Type header without one yields the default. -/
theorem c9_parse_charset_cases_witness :
    parse_charset (Doc.leaf [("Content-Type", "text/plain; charset=iso-8859-1")] none [])
        "utf8" = some "iso-8859-1"
      ∧ parse_charset (Doc.leaf [("Content-Type", "text/plain")] none []) "utf8"
        = some "utf8" := by
  constructor
  · have h := (c9_parse_charset_cases
        (Doc.leaf [("Content-Type", "text/plain; charset=iso-8859-1")] none []) "utf8").2.2.1
        "text/plain; charset=iso-8859-1" " charset=iso-8859-1" rfl (by decide) (by decide)
    rw [h]
    decide
  · exact (c9_parse_charset_cases
      (Doc.leaf [("Content-Type", "text/plain")] none []) "utf8").2.2.2
      "text/plain" rfl (by decide) (by decide)

/-- C1 counterexample: with messages A (UID 1) and B (UID 2), resolving
`1:*` by UID returns the mapping keyed 0 and 1 (the 0-based `enumerate`
index), not the 1-based sequence numbers 1 and 2 the claim states. -/
theorem c1_uid_keys_counterexample :
    getMsgs (MState.mk 2 [msgA, msgB]) setStar true = some [(0, msgA), (1, msgB)]
      ∧ getMsgs (MState.mk 2 [msgA, msgB]) setStar true ≠ some [(1, msgA), (2, msgB)] := by
  refine ⟨by decide, by decide⟩

/-- C4 counterexample: with two messages, resolving the sequence number 3
does not silently drop it: `self.msgs[2]` raises `IndexError`, so
resolution fails instead of returning a mapping. -/
theorem c4_out_of_range_counterexample :
    getMsgs (MState.mk 2 [msgA, msgB]) (MsgSet.mk [(some 3, some 3)]) false = none
      ∧ getMsgs (MState.mk 2 [msgA, msgB]) (MsgSet.mk [(some 3, some 3)]) false
          ≠ some [] := by
  refine ⟨by decide, by decide⟩

/-- C6 counterexample: a message already carrying `\Seen`: store ADD of
`[\Seen]` leaves the state unchanged, and the following store REMOVE of
`[\Seen]` leaves the flag set empty — not the pre-ADD state `{\Seen}`. -/
theorem c6_add_remove_counterexample :
    (store (MState.mk 1 [⟨1, insert SEEN ∅, "d", doc0⟩]) (MsgSet.mk [(some 1, some 1)])
        [SEEN] 1 false
      = some (MState.mk 1 [⟨1, insert SEEN ∅, "d", doc0⟩], [(1, insert SEEN ∅)]))
      ∧ ((store (MState.mk 1 [⟨1, insert SEEN ∅, "d", doc0⟩]) (MsgSet.mk [(some 1, some 1)])
            [SEEN] (-1) false).map (fun r => r.1.msgs.map Msg.flags) = some [∅])
      ∧ (∅ : Finset String) ≠ insert SEEN ∅ := by
  refine ⟨by decide, by decide, by decide⟩

/-- C8 counterexample: a multipart message whose only leaf declares
charset `iso-8859-1`; `payloads` decodes it with the containing message's
resolved charset (the default `utf8`, since the multipart Content-Type has
no charset parameter), not the part's own. -/
theorem c8_charset_counterexample :
    payloads (Doc.multi [("Content-Type", "multipart/alternative")] none
        (.cons (Doc.leaf [("Content-Type", "text/plain; charset=iso-8859-1")] none [233]) .nil))
      = some [("utf8", [233])]
      ∧ payloads_per_part_spec (Doc.multi [("Content-Type", "multipart/alternative")] none
          (.cons (Doc.leaf [("Content-Type", "text/plain; charset=iso-8859-1")] none [233])
            .nil))
        = some [("iso-8859-1", [233])]
      ∧ payloads (Doc.multi [("Content-Type", "multipart/alternative")] none
            (.cons (Doc.leaf [("Content-Type", "text/plain; charset=iso-8859-1")] none [233])
              .nil))
          ≠ payloads_per_part_spec (Doc.multi [("Content-Type", "multipart/alternative")] none
              (.cons (Doc.leaf [("Content-Type", "text/plain; charset=iso-8859-1")] none [233])
                .nil)) := by
  refine ⟨by decide, by decide, by decide⟩

/-- C8 (amended): `payloads` yields one entry per non-multipart part of
the walk, and every entry is decoded with the single charset resolved from
the top-level message (`self.parse_charset()`), not with each part's own
charset. -/
theorem c8_payloads_use_top_charset (d : Doc) (enc : String)
    (h : parse_charset d "utf8" = some enc) :
    payloads d
      = some (((Doc.walk d).filter
            (fun part => !(getContentMaintype part == "multipart"))).map
          (fun part => (enc, part.payloadStr))) := by
  unfold payloads
  refine optMapList_eq_map ?_
  intro part _
  rw [h]
  rfl

/-- C8 witness: a multipart container without a charset parameter resolves
to the default `utf8`, which is used for its leaf. -/
theorem c8_payloads_use_top_charset_witness :
    payloads (Doc.multi [("Content-Type", "multipart/mixed")] none
        (.cons (Doc.leaf [("Content-Type", "text/plain")] none [65]) .nil))
      = some (((Doc.walk (Doc.multi [("Content-Type", "multipart/mixed")] none
            (.cons (Doc.leaf [("Content-Type", "text/plain")] none [65]) .nil))).filter
              (fun part => !(getContentMaintype part == "multipart"))).map
          (fun part => ("utf8", part.payloadStr))) :=
  c8_payloads_use_top_charset
    (Doc.multi [("Content-Type", "multipart/mixed")] none
      (.cons (Doc.leaf [("Content-Type", "text/plain")] none [65]) .nil))
    "utf8" (by decide)

/-- C5: in UID mode the `last` substituted for the `*` wildcard is the
global `LAST_UID`, independent of mailbox membership: resolving `a:*`
returns exactly the messages whose UID lies in `[a, lastUid]`, keyed by
their 0-based position, even when no present message carries `lastUid`. -/
theorem c5_star_resolves_to_last_uid (st : MState) (a : Nat)
    (ha : a ≤ st.lastUid) (hne : st.msgs ≠ []) :
    getMsgs st (MsgSet.mk [(some a, none)]) true
      = some (st.msgs.enum.filter
          (fun p => decide (a ≤ p.2.uid ∧ p.2.uid ≤ st.lastUid))) := by
  rw [getMsgs_uid_eq hne]
  refine congrArg some (List.filter_congr ?_)
  intro p _
  have hiter : (MsgSet.mk [(some a, none)]).iterate st.lastUid
      = List.range' a (st.lastUid + 1 - a) := by
    unfold MsgSet.iterate
    simp only [List.map_cons, List.map_nil, Option.getD_some, Option.getD_none]
    rw [Nat.min_eq_left ha, Nat.max_eq_right ha]
    have hflat : ([List.range' a (st.lastUid + 1 - a)] : List (List Nat)).flatten
        = List.range' a (st.lastUid + 1 - a) := by simp
    rw [hflat]
    exact toSortedSet_eq_self (List.pairwise_lt_range' _ _)
  rw [hiter]
  simp only [decide_eq_decide]
  rw [List.mem_range'_1]
  omega

/-- C5 witness: after the message with UID 3 has been expunged the
allocator still reads 3; `1:*` by UID returns the two remaining
messages. -/
theorem c5_star_resolves_to_last_uid_witness :
    getMsgs (MState.mk 3 [msgA, msgB]) (MsgSet.mk [(some 1, none)]) true
      = some ((MState.mk 3 [msgA, msgB]).msgs.enum.filter
          (fun p => decide (1 ≤ p.2.uid ∧ p.2.uid ≤ (MState.mk 3 [msgA, msgB]).lastUid))) :=
  c5_star_resolves_to_last_uid (MState.mk 3 [msgA, msgB]) 1 (by decide) (by decide)

/-- C1 (amended): for a non-empty mailbox and a set specification of
1-based numbers, successful resolution returns a mapping in ascending key
order, where in sequence mode (`by_uid` false) the key is the current
1-based sequence number (key `k` holds the message at position `k - 1`),
but in UID mode (`by_uid` true) the key is the 0-based `enumerate` index
(key `k` holds the message at position `k`, i.e. sequence number `k + 1`). -/
theorem c1_resolution_keys (st : MState) (s : MsgSet)
    (hwf : ∀ p ∈ s.ranges, (∀ a ∈ p.1.toList, 1 ≤ a) ∧ (∀ b ∈ p.2.toList, 1 ≤ b))
    (hne : st.msgs ≠ []) :
    (∀ res, getMsgs st s true = some res →
        res.Pairwise (fun x y => x.1 < y.1)
          ∧ ∀ km ∈ res, st.msgs.get? km.1 = some km.2)
      ∧ (∀ res, getMsgs st s false = some res →
          res.Pairwise (fun x y => x.1 < y.1)
            ∧ ∀ km ∈ res, 1 ≤ km.1 ∧ st.msgs.get? (km.1 - 1) = some km.2) := by
  constructor
  · intro res hres
    rw [getMsgs_uid_eq hne] at hres
    have hres' := Option.some.inj hres
    subst hres'
    constructor
    · exact (pairwise_enum_fst st.msgs).filter _
    · intro km hkm
      exact (mem_enum_get? (List.mem_of_mem_filter hkm)).2
  · intro res hres
    unfold getMsgs at hres
    rw [resolveIdx_false_eq hne] at hres
    obtain ⟨idxs, hidxs, hfill⟩ := Option.map_eq_some'.mp hres
    have hlen1 : 1 ≤ st.msgs.length := List.length_pos.mpr hne
    have hpos := iterate_pos hwf hlen1
    have hkeys := optMapList_keys (g := fun i => pyIdx st.msgs.length ((i : Int) - 1)) hidxs
    have hmemfact : ∀ p ∈ idxs, 1 ≤ p.1 ∧ p.2 = p.1 - 1 ∧ p.2 < st.msgs.length := by
      intro p hp
      obtain ⟨x, hx, hfx⟩ := optMapList_mem hidxs p hp
      obtain ⟨j, hj, hpj⟩ := Option.map_eq_some'.mp hfx
      have hx1 : 1 ≤ x := hpos x hx
      have hle : x ≤ st.msgs.length := by
        by_contra hgt
        rw [pyIdx_pos_none hx1 (by omega)] at hj
        exact absurd hj (by simp)
      rw [pyIdx_pos_some hx1 hle] at hj
      have hj' := Option.some.inj hj
      subst hpj
      exact ⟨hx1, by rw [← hj'], by rw [← hj']; omega⟩
    constructor
    · subst hfill
      have hfst := @filterMap_fst st.msgs idxs (fun p hp => (hmemfact p hp).2.2)
      have hpw : ((idxs.filterMap
          (fun p => (st.msgs.get? p.2).map (fun m => (p.1, m)))).map Prod.fst).Pairwise
            (· < ·) := by
        rw [hfst, hkeys]
        exact pairwise_iterate s _
      exact List.pairwise_map.mp hpw
    · intro km hkm
      subst hfill
      obtain ⟨p, hp, hkm'⟩ := List.mem_filterMap.mp hkm
      obtain ⟨m, hm, hmk⟩ := Option.map_eq_some'.mp hkm'
      obtain ⟨h1, h2, h3⟩ := hmemfact p hp
      subst hmk
      exact ⟨h1, by rw [← h2]; exact hm⟩

/-- C1 witness: resolving `1:*` over a two-message mailbox in both
modes. -/
theorem c1_resolution_keys_witness :
    (∀ res, getMsgs (MState.mk 2 [msgA, msgB]) setStar true = some res →
        res.Pairwise (fun x y => x.1 < y.1)
          ∧ ∀ km ∈ res, (MState.mk 2 [msgA, msgB]).msgs.get? km.1 = some km.2)
      ∧ (∀ res, getMsgs (MState.mk 2 [msgA, msgB]) setStar false = some res →
          res.Pairwise (fun x y => x.1 < y.1)
            ∧ ∀ km ∈ res, 1 ≤ km.1
                ∧ (MState.mk 2 [msgA, msgB]).msgs.get? (km.1 - 1) = some km.2) :=
  c1_resolution_keys (MState.mk 2 [msgA, msgB]) setStar (by decide) (by decide)

/-- C4 (amended): for a non-empty mailbox and a specification of 1-based
numbers, sequence-mode resolution succeeds exactly when every requested
number is at most the message count; a number beyond the count makes it
fail with an index error rather than being silently dropped (only the `*`
wildcard is clamped, to the message count). -/
theorem c4_resolution_success_iff (st : MState) (s : MsgSet)
    (hwf : ∀ p ∈ s.ranges, (∀ a ∈ p.1.toList, 1 ≤ a) ∧ (∀ b ∈ p.2.toList, 1 ≤ b))
    (hne : st.msgs ≠ []) :
    (getMsgs st s false).isSome = true
      ↔ ∀ i ∈ s.iterate st.msgs.length, i ≤ st.msgs.length := by
  have hlen1 : 1 ≤ st.msgs.length := List.length_pos.mpr hne
  have hpos := iterate_pos hwf hlen1
  unfold getMsgs
  rw [resolveIdx_false_eq hne, Option.isSome_map', optMapList_isSome_iff]
  constructor
  · intro h i hi
    have hsome := h i hi
    by_contra hgt
    rw [pyIdx_pos_none (hpos i hi) (by omega)] at hsome
    simp at hsome
  · intro h i hi
    rw [pyIdx_pos_some (hpos i hi) (h i hi)]
    simp

/-- C4 witness: `1:*` on a two-message mailbox resolves (both numbers in
range). -/
theorem c4_resolution_success_iff_witness :
    (getMsgs (MState.mk 2 [msgA, msgB]) setStar false).isSome = true
      ↔ ∀ i ∈ setStar.iterate (MState.mk 2 [msgA, msgB]).msgs.length,
          i ≤ (MState.mk 2 [msgA, msgB]).msgs.length :=
  c4_resolution_success_iff (MState.mk 2 [msgA, msgB]) setStar (by decide) (by decide)

/-- C6 (amended): store with mode ADD of a flag list followed by store with
mode REMOVE of the same list restores the state, provided no addressed
message already carried any flag of the list before the ADD (a flag
already present is kept by the idempotent ADD but stripped by the REMOVE,
so without the disjointness proviso the pre-ADD state is not restored). -/
theorem c6_add_remove_disjoint_restores (st : MState) (s : MsgSet) (F : List String)
    (u : Bool) (idxs : List (Nat × Nat)) (st1 : MState) (r1 : List (Nat × Finset String))
    (st2 : MState) (r2 : List (Nat × Finset String))
    (hres : resolveIdx st s u = some idxs)
    (hdisj : ∀ p ∈ idxs, ∀ m ∈ (st.msgs.get? p.2).toList, ∀ fl ∈ F, fl ∉ m.flags)
    (h1 : store st s F 1 u = some (st1, r1))
    (h2 : store st1 s F (-1) u = some (st2, r2)) :
    st2 = st := by
  rw [store_of_resolve hres] at h1
  simp only [Option.some.injEq, Prod.mk.injEq] at h1
  obtain ⟨hst1, -⟩ := h1
  subst hst1
  have hres1 : resolveIdx { st with msgs := updateFrom idxs (applyMode 1 F) 0 st.msgs } s u
      = some idxs := by
    have hcongr := @resolveIdx_congr
      { st with msgs := updateFrom idxs (applyMode 1 F) 0 st.msgs } st s u
      rfl (updateFrom_map_uid idxs (applyMode 1 F) 0 st.msgs)
    exact hcongr.trans hres
  rw [store_of_resolve hres1] at h2
  simp only [Option.some.injEq, Prod.mk.injEq] at h2
  obtain ⟨hst2, -⟩ := h2
  have hcomp := updateFrom_comp idxs (applyMode 1 F) (applyMode (-1) F) 0 st.msgs
  have hid : updateFrom idxs (fun x => applyMode (-1) F (applyMode 1 F x)) 0 st.msgs
      = st.msgs := by
    refine updateFrom_id idxs _ 0 st.msgs ?_
    intro j m hany _ hget
    obtain ⟨p, hp, hpj⟩ := List.any_eq_true.mp hany
    have hpj' : p.2 = j := by simpa using hpj
    simp only [Nat.sub_zero] at hget
    have hm : m ∈ (st.msgs.get? p.2).toList := by
      rw [hpj', hget]
      simp
    exact applyMode_remove_add (fun x hx => hdisj p hp m hm x hx)
  rw [← hst2, hcomp, hid]

/-- C6 witness: a one-message mailbox with no flags; ADD then REMOVE of
`[\Seen]` restores the state. -/
theorem c6_add_remove_disjoint_restores_witness :
    MState.mk 1 [⟨1, ∅, "d", doc0⟩] = MState.mk 1 [⟨1, ∅, "d", doc0⟩] :=
  c6_add_remove_disjoint_restores
    (MState.mk 1 [⟨1, ∅, "d", doc0⟩]) (MsgSet.mk [(some 1, some 1)]) [SEEN] false
    [(1, 0)]
    (MState.mk 1 [⟨1, insert SEEN ∅, "d", doc0⟩]) [(1, insert SEEN ∅)]
    (MState.mk 1 [⟨1, ∅, "d", doc0⟩]) [(1, ∅)]
    (by decide) (by decide) (by decide) (by decide)

theorem surrogateEncodeChar_decode {b : Nat} (h : b < 256) :
    surrogateEncodeChar (if b < 128 then b else 0xDC00 + b) = some b := by
  by_cases hb : b < 128
  · simp [surrogateEncodeChar, hb]
  · have h1 : ¬(0xDC00 + b < 128) := by omega
    have h2 : 0xDC80 ≤ 0xDC00 + b ∧ 0xDC00 + b ≤ 0xDCFF := by omega
    simp only [if_neg hb, surrogateEncodeChar, if_neg h1, if_pos h2]
    have hsub : 0xDC00 + b - 0xDC00 = b := by omega
    rw [hsub]

theorem surrogateEncode_decode :
    ∀ {bs : List Nat}, (∀ b ∈ bs, b < 256) → surrogateEncode (surrogateDecode bs) = some bs
  | [], _ => rfl
  | b :: rest, h => by
    have hb := surrogateEncodeChar_decode (h b (List.mem_cons_self b rest))
    have hrest := @surrogateEncode_decode rest (fun x hx => h x (List.mem_cons_of_mem b hx))
    simp only [surrogateDecode, List.map_cons, surrogateEncode, optMapList] at hrest ⊢
    rw [hb, hrest]

theorem splitBodyAux_map {f : Nat → Nat} (hf : ∀ x, f x = 10 ↔ x = 10) :
    ∀ (b : Bool) (l : List Nat),
      splitBodyAux b (l.map f) = ((splitBodyAux b l).1.map f, (splitBodyAux b l).2.map f)
  | _, [] => by simp [splitBodyAux]
  | b, c :: rest => by
    simp only [List.map_cons, splitBodyAux]
    by_cases hc : c = 10
    · have hfc : f c = 10 := (hf c).mpr hc
      rw [if_pos hfc, if_pos hc]
      cases b with
      | true => simp
      | false => simp [splitBodyAux_map hf true rest]
    · have hfc : ¬(f c = 10) := fun e => hc ((hf c).mp e)
      rw [if_neg hfc, if_neg hc]
      simp [splitBodyAux_map hf false rest]

theorem splitBodyAux_snd_mem :
    ∀ (b : Bool) (l : List Nat), ∀ x ∈ (splitBodyAux b l).2, x ∈ l
  | _, [] => by simp [splitBodyAux]
  | b, c :: rest => by
    intro x hx
    by_cases hc : c = 10
    · cases b with
      | true =>
        have hred : (splitBodyAux true (c :: rest)).2 = rest := by
          simp [splitBodyAux, hc]
        rw [hred] at hx
        exact List.mem_cons_of_mem c hx
      | false =>
        have hred : (splitBodyAux false (c :: rest)).2 = (splitBodyAux true rest).2 := by
          simp [splitBodyAux, hc]
        rw [hred] at hx
        exact List.mem_cons_of_mem c (splitBodyAux_snd_mem true rest x hx)
    · have hred : (splitBodyAux b (c :: rest)).2 = (splitBodyAux false rest).2 := by
        simp [splitBodyAux, hc]
      rw [hred] at hx
      exact List.mem_cons_of_mem c (splitBodyAux_snd_mem false rest x hx)

/-- C10: delivering a document with an arbitrary byte-sequence body
(including 8-bit, non-UTF-8 bytes) and reading the stored message's body
stream yields exactly the delivered body bytes — the bytes after the first
blank line of the raw document. -/
theorem c10_body_roundtrip (st : MState) (raw : List Nat) (flags : List String)
    (date : String) (hbytes : ∀ b ∈ raw, b < 256)
    (_hnm : getContentMaintype (parseMessage raw) ≠ "multipart") :
    ∃ m, (addMessage st raw flags date).msgs.getLast? = some m
      ∧ getBodyFile m.doc = some ((splitBody raw).2) := by
  refine ⟨⟨st.lastUid + 1, flags.toFinset, date, parseMessage raw⟩, ?_, ?_⟩
  · exact List.getLast?_concat _
  · have hf : ∀ x : Nat, (if x < 128 then x else 0xDC00 + x) = 10 ↔ x = 10 := by
      intro x
      by_cases hx : x < 128
      · rw [if_pos hx]
      · rw [if_neg hx]
        omega
    show surrogateEncode (splitBody (surrogateDecode raw)).2 = some ((splitBody raw).2)
    have hcomm := splitBodyAux_map (f := fun x => if x < 128 then x else 0xDC00 + x)
      hf true raw
    unfold splitBody surrogateDecode
    rw [hcomm]
    exact surrogateEncode_decode
      (fun b hb => hbytes b (splitBodyAux_snd_mem true raw b hb))

/-- C10 witness: the document `H: i\n\n` followed by the body bytes
`[200, 0, 10]`. -/
theorem c10_body_roundtrip_witness :
    ∃ m, (addMessage initialState [72, 58, 32, 105, 10, 10, 200, 0, 10]
          [] "d").msgs.getLast? = some m
      ∧ getBodyFile m.doc = some ((splitBody [72, 58, 32, 105, 10, 10, 200, 0, 10]).2) :=
  c10_body_roundtrip initialState [72, 58, 32, 105, 10, 10, 200, 0, 10] [] "d"
    (by decide) (by decide)

end Localmail
